import Mathlib

/-!
Verification of the workspace-context collector (`get_workspace_context` in
`main.py`) against its natural-language specification.

The collector is shallowly embedded: the filesystem is a finite tree of named
nodes, a regular file carrying `some text` when it opens and decodes as UTF-8
and `none` when reading it raises `UnicodeDecodeError`/`IOError`.  The host is
a POSIX system, so `os.sep` is `'/'` and `fnmatch.fnmatch` (which normalises
case with `os.path.normcase`, the identity on POSIX) is plain case-sensitive
glob matching.  Python string/path operations are modelled as executable
functions over `List Char`.  Directory listings are a mutually inductive list
type so that every traversal is structurally recursive and kernel-reducible;
the glob matcher carries an explicit fuel argument that only bounds its
recursion depth (every step shortens the pattern or the string, and the
supplied fuel always suffices).
-/

namespace LLMCode

/-! ## Characters, strings and separators -/

/-- `os.sep` on the POSIX host. -/
def osSepChar : Char := '/'

/-- Split a character list at every occurrence of `sep`; models Python
`str.split(sep)` for a one-character separator (`"".split -> [""]`). -/
def splitOnCharL (sep : Char) : List Char → List (List Char)
  | [] => [[]]
  | c :: rest =>
    if c = sep then [] :: splitOnCharL sep rest
    else
      match splitOnCharL sep rest with
      | [] => [[c]]
      | g :: gs => (c :: g) :: gs

/-- Iterating a Python text file yields its lines; after `str.strip()` the
line terminators are gone, so splitting the decoded content on `'\n'` is an
equivalent model. -/
def splitLines (s : String) : List String :=
  (splitOnCharL '\n' s.data).map String.mk

/-- Models `rel_path.split(os.sep)`. -/
def splitSep (s : String) : List String :=
  (splitOnCharL osSepChar s.data).map String.mk

/-- Join relative-path components with `os.sep`, as `os.path.join` /
`os.path.relpath` produce for already-relative clean components. -/
def renderRelL : List (List Char) → List Char
  | [] => []
  | [n] => n
  | n :: m :: rest => n ++ osSepChar :: renderRelL (m :: rest)

/-- String form of `renderRelL`. -/
def renderRel (comps : List String) : String :=
  String.mk (renderRelL (comps.map String.data))

/-- `os.path.relpath(root, full_path)` for the walk root: `"."` at the top,
otherwise the joined components. -/
def relString (relRoot : List String) : String :=
  match relRoot with
  | [] => "."
  | comps => renderRel comps

/-- `os.path.join(a, b)` for a non-absolute `b`. -/
def joinPath (a b : String) : String :=
  String.mk (a.data ++ osSepChar :: b.data)

/-- Models `p.rstrip(os.sep)`: drop every trailing separator. -/
def rstripSep (s : String) : String :=
  String.mk ((s.data.reverse.dropWhile (· = osSepChar)).reverse)

/-- Models `str.lower()` (ASCII suffices for the built-in exclusions). -/
def lowerStr (s : String) : String :=
  String.mk (s.data.map Char.toLower)

/-- Models `str.strip()` with no argument: trim whitespace on both ends. -/
def stripStr (s : String) : String :=
  String.mk (((s.data.dropWhile Char.isWhitespace).reverse.dropWhile
    Char.isWhitespace).reverse)

/-- Models `line.replace('/', os.sep)` (`os.sep` is one character). -/
def replaceSlash (s : String) : String :=
  String.mk (s.data.map fun c => if c = '/' then osSepChar else c)

/-- Models `line.startswith('#')`. -/
def startsHash (s : String) : Bool :=
  match s.data with
  | '#' :: _ => true
  | _ => false

/-- Does `hay` start with `needle`? -/
def startsWithL : List Char → List Char → Bool
  | [], _ => true
  | _ :: _, [] => false
  | a :: as, b :: bs => a = b && startsWithL as bs

/-- Models Python `needle in hay` on strings: substring containment. -/
def containsSubL (needle : List Char) : List Char → Bool
  | [] => startsWithL needle []
  | c :: t => startsWithL needle (c :: t) || containsSubL needle t

/-- Models `needle in hay` for Python strings. -/
def containsSub (hay needle : String) : Bool :=
  containsSubL needle.data hay.data

/-! ## `fnmatch.fnmatch` (POSIX: case-sensitive glob matching)

A pattern is compiled to tokens: `*` matches any run of characters, `?` any
single character, `[...]` a character class (leading `!` negates, a `]`
directly after `[`/`[!` is literal, `a-b` is a range, an unterminated `[` is
a literal `[`), everything else is literal.  The match covers the whole
string, as `fnmatch.translate` anchors its regex. -/

inductive GlobTok where
  | star
  | anyChar
  | lit (c : Char)
  | cls (stuff : List Char)
deriving Repr, DecidableEq

/-- Scan for the closing `]` of a character class; returns the class body and
the remainder after the `]`. -/
def scanClose : List Char → Option (List Char × List Char)
  | [] => none
  | ']' :: rest => some ([], rest)
  | c :: rest => (scanClose rest).map fun p => (c :: p.1, p.2)

/-- Find the class body after a `[`, per `fnmatch.translate`: a leading `!`
and then a leading `]` belong to the body. -/
def findClose (l : List Char) : Option (List Char × List Char) :=
  match l with
  | '!' :: ']' :: rest => (scanClose rest).map fun p => ('!' :: ']' :: p.1, p.2)
  | '!' :: rest => (scanClose rest).map fun p => ('!' :: p.1, p.2)
  | ']' :: rest => (scanClose rest).map fun p => (']' :: p.1, p.2)
  | rest => scanClose rest

/-- Character-class items: `a-b` is a range, a `-` first or last is literal. -/
def rangeItems : List Char → List (Char × Char)
  | [] => []
  | a :: '-' :: b :: rest => (a, b) :: rangeItems rest
  | a :: rest => (a, a) :: rangeItems rest

/-- Does a character class with body `stuff` match `c`? -/
def classMatch (stuff : List Char) (c : Char) : Bool :=
  match stuff with
  | '!' :: rest => !((rangeItems rest).any fun p => p.1 ≤ c && c ≤ p.2)
  | _ => (rangeItems stuff).any fun p => p.1 ≤ c && c ≤ p.2

/-- Compile a glob pattern to tokens.  The fuel only bounds the recursion
depth (one unit per consumed token); `pattern.length + 1` always suffices. -/
def globCompileF : Nat → List Char → List GlobTok
  | 0, _ => []
  | _ + 1, [] => []
  | f + 1, '*' :: ps => GlobTok.star :: globCompileF f ps
  | f + 1, '?' :: ps => GlobTok.anyChar :: globCompileF f ps
  | f + 1, '[' :: ps =>
    (match findClose ps with
     | none => GlobTok.lit '[' :: globCompileF f ps
     | some p => GlobTok.cls p.1 :: globCompileF f p.2)
  | f + 1, c :: ps => GlobTok.lit c :: globCompileF f ps

/-- Match compiled tokens against a character list (whole-string match).  The
fuel only bounds the recursion depth; every step shortens the pattern or the
string, so `(tokens + characters) * 2 + 1` always suffices. -/
def matchToksF : Nat → List GlobTok → List Char → Bool
  | 0, _, _ => false
  | _ + 1, [], s => s.isEmpty
  | f + 1, GlobTok.star :: ps, s =>
    matchToksF f ps s ||
      (match s with
       | [] => false
       | _ :: s' => matchToksF f (GlobTok.star :: ps) s')
  | _ + 1, GlobTok.anyChar :: _, [] => false
  | f + 1, GlobTok.anyChar :: ps, _ :: s' => matchToksF f ps s'
  | _ + 1, GlobTok.lit _ :: _, [] => false
  | f + 1, GlobTok.lit c :: ps, c' :: s' => c = c' && matchToksF f ps s'
  | _ + 1, GlobTok.cls _ :: _, [] => false
  | f + 1, GlobTok.cls stuff :: ps, c :: s' =>
    classMatch stuff c && matchToksF f ps s'

/-- `fnmatch.fnmatch(name, pat)` on the POSIX host. -/
def fnmatch (name pat : String) : Bool :=
  let toks := globCompileF (pat.data.length + 1) pat.data
  matchToksF ((toks.length + name.data.length) * 2 + 1) toks name.data

/-! ## The filesystem model -/

mutual
/-- A filesystem node.  A `file` carries `some text` when opening it in text
mode and decoding as UTF-8 succeeds, `none` when that raises
`UnicodeDecodeError` or `IOError`. -/
inductive FSEntry where
  | file (data : Option String)
  | dir (children : FSChildren)

/-- The children of a directory, in the (stable) order `os.scandir` reports
them. -/
inductive FSChildren where
  | nil
  | cons (name : String) (entry : FSEntry) (rest : FSChildren)
end

/-- Build a directory listing from a list of named entries. -/
def fsChildren : List (String × FSEntry) → FSChildren
  | [] => FSChildren.nil
  | (n, e) :: rest => FSChildren.cons n e (fsChildren rest)

/-- The names of a directory's children, in order. -/
def namesOf : FSChildren → List String
  | FSChildren.nil => []
  | FSChildren.cons n _ rest => n :: namesOf rest

/-- Look a name up among the children of a directory. -/
def findChild : FSChildren → String → Option FSEntry
  | FSChildren.nil, _ => none
  | FSChildren.cons n e rest, target =>
    if n = target then some e else findChild rest target

/-- Resolve a clean relative path (list of components) against a node; models
what `os.path.abspath` plus the filesystem make of the path argument:
`some node` when the path names an existing object, `none` otherwise
(`os.path.abspath` itself is purely lexical and never fails). -/
def lookup : FSEntry → List String → Option FSEntry
  | e, [] => some e
  | FSEntry.file _, _ :: _ => none
  | FSEntry.dir cs, n :: rest =>
    match findChild cs n with
    | some e => lookup e rest
    | none => none

/-! ## The collector, translated from `get_workspace_context` -/

/-- One element of the returned `context` list. -/
structure ContextEntry where
  path : String
  content : String
deriving Repr, DecidableEq

/-- The collector's outcome: `{"success": True, "context": ...}` or
`{"success": False, "error": ...}`. -/
inductive CollectResult where
  | success (context : List ContextEntry)
  | failure (error : String)
deriving Repr, DecidableEq

/-- The built-in name exclusions of the directory walk. -/
def builtinExcluded : List String := [".git", ".pyc", ".env", "__pycache__"]

/-- `any(pattern in file.lower() for pattern in ['.git', '.pyc', '.env',
'__pycache__'])`. -/
def nameHasBuiltin (file : String) : Bool :=
  builtinExcluded.any fun pat => containsSub (lowerStr file) pat

/-- The `.gitignore` list comprehension: keep lines whose `strip()` is
non-empty and that do not start with `'#'`, stripped and with `'/'` replaced
by `os.sep`. -/
def parseGitignore (text : String) : List String :=
  (splitLines text).filterMap fun line =>
    if stripStr line != "" && !startsHash line then
      some (replaceSlash (stripStr line))
    else none

/-- Reading the ignore patterns: `os.path.exists` then `open(...)`.  A missing
`.gitignore` yields the empty pattern list; a `.gitignore` that is a
directory or fails to decode raises, and the exception propagates to the
function's outer `except`, which turns it into a failure result. -/
def gitignoreRead (cwd : FSEntry) : Except String (List String) :=
  match lookup cwd [".gitignore"] with
  | none => Except.ok []
  | some (FSEntry.file (some text)) => Except.ok (parseGitignore text)
  | some (FSEntry.file none) => Except.error "gitignore: unreadable"
  | some (FSEntry.dir _) => Except.error "IsADirectoryError: .gitignore"

/-- The directory-pruning test on `dirs`:
`fnmatch(os.path.join(rel_root, d), p) or fnmatch(d, p.rstrip(os.sep))`. -/
def dirPruned (pats : List String) (relRoot : List String) (d : String) : Bool :=
  pats.any fun p =>
    fnmatch (joinPath (relString relRoot) d) p || fnmatch d (rstripSep p)

/-- The first `continue` of the file loop: ignore-pattern match on
`os.path.join(rel_root, file)`, on the bare name with trailing separators
stripped from the pattern, or a built-in substring in the lowered name. -/
def fileExcludedEarly (pats : List String) (relRoot : List String)
    (file : String) : Bool :=
  (pats.any fun p => fnmatch (joinPath (relString relRoot) file) p) ||
  (pats.any fun p => fnmatch file (rstripSep p)) ||
  nameHasBuiltin file

/-- The second `continue`: some component of
`os.path.relpath(file_path, path).split(os.sep)` matches a pattern. -/
def partExcluded (pats : List String) (relRoot : List String)
    (file : String) : Bool :=
  (splitSep (renderRel (relRoot ++ [file]))).any fun part =>
    pats.any fun p => fnmatch part p

/-- A file in the walk survives both `continue`s. -/
def fileKept (pats : List String) (relRoot : List String)
    (file : String) : Bool :=
  !fileExcludedEarly pats relRoot file && !partExcluded pats relRoot file

/-- The body of `for file in files`: surviving files that read successfully
are appended with path `os.path.relpath(file_path, path)`; unreadable ones
are skipped by the inner `except: continue`. -/
def filesHere (pats : List String) (relRoot : List String) :
    FSChildren → List ContextEntry
  | FSChildren.nil => []
  | FSChildren.cons _ (FSEntry.dir _) rest => filesHere pats relRoot rest
  | FSChildren.cons n (FSEntry.file data) rest =>
    (if fileKept pats relRoot n then
      (match data with
       | some content => [⟨renderRel (relRoot ++ [n]), content⟩]
       | none => [])
     else []) ++ filesHere pats relRoot rest

/-- The recursive part of `os.walk(full_path)` with the in-place pruning of
`dirs`: after the current directory's own files are emitted, each surviving
subdirectory is visited top-down, in order — its files first, then its own
subdirectories. -/
def walkSub (pats : List String) (relRoot : List String) :
    FSChildren → List ContextEntry
  | FSChildren.nil => []
  | FSChildren.cons n e rest =>
    (match e with
     | FSEntry.file _ => []
     | FSEntry.dir cs' =>
       if dirPruned pats relRoot n then []
       else
         filesHere pats (relRoot ++ [n]) cs' ++
           walkSub pats (relRoot ++ [n]) cs') ++
      walkSub pats relRoot rest

/-- The whole `for root, dirs, files in os.walk(full_path)` loop over the
children `cs` of the scanned directory. -/
def walkDir (pats : List String) (relRoot : List String)
    (cs : FSChildren) : List ContextEntry :=
  filesHere pats relRoot cs ++ walkSub pats relRoot cs

/-- `os.path.basename(full_path)`: the last component of the path argument. -/
def basename (path : List String) : String := path.getLastD ""

/-- `get_workspace_context(path)`, with the process working directory made an
explicit parameter `cwd` and the path argument a clean relative component
list (`[]` is `"."`).  Branches, in source order: load the ignore patterns
from `cwd/.gitignore`; if the resolved path is a regular file, return its
single entry or the fixed unreadable-file failure; otherwise walk it as a
directory (a nonexistent path makes `os.walk` yield nothing, so the result
is an empty success). -/
def get_workspace_context (cwd : FSEntry) (path : List String) : CollectResult :=
  match gitignoreRead cwd with
  | Except.error e => CollectResult.failure e
  | Except.ok ignore_patterns =>
    match lookup cwd path with
    | some (FSEntry.file (some content)) =>
      CollectResult.success [⟨basename path, content⟩]
    | some (FSEntry.file none) =>
      CollectResult.failure "Cannot read file: binary or unreadable"
    | some (FSEntry.dir cs) =>
      CollectResult.success (walkDir ignore_patterns [] cs)
    | none => CollectResult.success []

/-! ## Auxiliary definitions used by the statements below -/

/-- A path component contains no separator — an invariant every real
filesystem name satisfies. -/
def sepFree (s : String) : Bool := decide (osSepChar ∉ s.data)

/-- The file name of a reported entry: the last component of its path
(`rel_path.split(os.sep)[-1]`). -/
def entryFileName (e : ContextEntry) : String := (splitSep e.path).getLastD ""

/-- A directory listing is well formed when the sibling names are distinct
and separator-free, recursively — the invariant any real directory obeys. -/
def namesOk (l : List String) : Bool := l.all sepFree && decide l.Nodup

mutual
/-- Well-formedness of a node (see `namesOk`). -/
def wfEntry : FSEntry → Bool
  | FSEntry.file _ => true
  | FSEntry.dir cs => namesOk (namesOf cs) && wfEach cs

/-- Well-formedness of every entry of a listing. -/
def wfEach : FSChildren → Bool
  | FSChildren.nil => true
  | FSChildren.cons _ e rest => wfEntry e && wfEach rest
end

/-- Well-formedness of a directory listing. -/
def wfChildren (cs : FSChildren) : Bool := namesOk (namesOf cs) && wfEach cs

/-- Remove, at every depth, the files whose read would fail. -/
def dropUnreadable : FSChildren → FSChildren
  | FSChildren.nil => FSChildren.nil
  | FSChildren.cons _ (FSEntry.file none) rest => dropUnreadable rest
  | FSChildren.cons n (FSEntry.file (some d)) rest =>
    FSChildren.cons n (FSEntry.file (some d)) (dropUnreadable rest)
  | FSChildren.cons n (FSEntry.dir cs') rest =>
    FSChildren.cons n (FSEntry.dir (dropUnreadable cs')) (dropUnreadable rest)

/-! ## String-layer lemmas: splitting is a left inverse of joining -/

theorem splitOnCharL_ne_nil (sep : Char) : ∀ l, splitOnCharL sep l ≠ []
  | [] => by simp [splitOnCharL]
  | c :: rest => by
    simp only [splitOnCharL]
    split
    · simp
    · split
      · simp
      · simp

theorem splitOnCharL_sepfree : ∀ n : List Char, osSepChar ∉ n →
    splitOnCharL osSepChar n = [n]
  | [], _ => rfl
  | c :: rest, h => by
    have hc : ¬c = osSepChar := fun hc => h (hc ▸ List.mem_cons_self c rest)
    have hr : osSepChar ∉ rest := fun hm => h (List.mem_cons_of_mem c hm)
    simp only [splitOnCharL, if_neg hc, splitOnCharL_sepfree rest hr]

theorem splitOnCharL_append : ∀ (n t : List Char), osSepChar ∉ n →
    splitOnCharL osSepChar (n ++ osSepChar :: t) =
      n :: splitOnCharL osSepChar t
  | [], t, _ => by simp [splitOnCharL]
  | c :: n', t, h => by
    have hc : ¬c = osSepChar := fun hc => h (hc ▸ List.mem_cons_self c n')
    have hr : osSepChar ∉ n' := fun hm => h (List.mem_cons_of_mem c hm)
    simp only [List.cons_append, splitOnCharL, if_neg hc, List.append_eq,
      splitOnCharL_append n' t hr]

theorem renderRelL_split : ∀ comps : List (List Char), comps ≠ [] →
    (∀ g ∈ comps, osSepChar ∉ g) →
    splitOnCharL osSepChar (renderRelL comps) = comps
  | [], h0, _ => absurd rfl h0
  | [g], _, h => by
    simp only [renderRelL]
    exact splitOnCharL_sepfree g (h g (List.mem_singleton_self g))
  | g :: m :: rest, _, h => by
    simp only [renderRelL]
    rw [splitOnCharL_append g _ (h g (List.mem_cons_self g _)),
      renderRelL_split (m :: rest) (List.cons_ne_nil m rest)
        (fun x hx => h x (List.mem_cons_of_mem g hx))]

theorem string_mk_data (s : String) : String.mk s.data = s := rfl

theorem sepFree_iff (s : String) : sepFree s = true ↔ osSepChar ∉ s.data := by
  simp [sepFree]

theorem splitSep_renderRel (comps : List String) (h0 : comps ≠ [])
    (h : ∀ s ∈ comps, sepFree s = true) : splitSep (renderRel comps) = comps := by
  unfold splitSep renderRel
  rw [string_mk_data, renderRelL_split (comps.map String.data)
    (by simpa using h0)
    (by
      intro g hg
      rcases List.mem_map.mp hg with ⟨s, hs, rfl⟩
      exact (sepFree_iff s).mp (h s hs))]
  rw [List.map_map]
  exact List.map_id'' (fun s => rfl) comps

theorem renderRel_injOn (a b : List String) (ha : a ≠ []) (hb : b ≠ [])
    (hfa : ∀ s ∈ a, sepFree s = true) (hfb : ∀ s ∈ b, sepFree s = true)
    (h : renderRel a = renderRel b) : a = b := by
  rw [← splitSep_renderRel a ha hfa, ← splitSep_renderRel b hb hfb, h]

theorem renderRel_append_inj (pre a b : List String)
    (hpre : pre.all sepFree = true) (hfa : a.all sepFree = true)
    (hfb : b.all sepFree = true) (ha : a ≠ []) (hb : b ≠ [])
    (h : renderRel (pre ++ a) = renderRel (pre ++ b)) : a = b := by
  have hne₁ : pre ++ a ≠ [] := by simp [List.append_eq_nil, ha]
  have hne₂ : pre ++ b ≠ [] := by simp [List.append_eq_nil, hb]
  have hf₁ : ∀ s ∈ pre ++ a, sepFree s = true := by
    intro s hs
    rcases List.mem_append.mp hs with hs | hs
    · exact List.all_eq_true.mp hpre s hs
    · exact List.all_eq_true.mp hfa s hs
  have hf₂ : ∀ s ∈ pre ++ b, sepFree s = true := by
    intro s hs
    rcases List.mem_append.mp hs with hs | hs
    · exact List.all_eq_true.mp hpre s hs
    · exact List.all_eq_true.mp hfb s hs
  exact List.append_cancel_left (renderRel_injOn _ _ hne₁ hne₂ hf₁ hf₂ h)

/-! ## Well-formedness plumbing -/

theorem wfChildren_cons_iff (n : String) (e : FSEntry) (rest : FSChildren) :
    wfChildren (FSChildren.cons n e rest) = true ↔
      sepFree n = true ∧ n ∉ namesOf rest ∧ wfEntry e = true ∧
        wfChildren rest = true := by
  simp only [wfChildren, namesOk, namesOf, wfEach, List.all_cons,
    Bool.and_eq_true, decide_eq_true_eq, List.nodup_cons]
  tauto

theorem wfChildren_names_sepFree {cs : FSChildren} (h : wfChildren cs = true) :
    ∀ x ∈ namesOf cs, sepFree x = true := by
  have h' := h
  simp only [wfChildren, namesOk, Bool.and_eq_true, List.all_eq_true] at h'
  exact fun x hx => h'.1.1 x hx

theorem wfChildren_names_nodup {cs : FSChildren} (h : wfChildren cs = true) :
    (namesOf cs).Nodup := by
  simp only [wfChildren, namesOk, Bool.and_eq_true, decide_eq_true_eq] at h
  exact h.1.2

theorem wfEntry_dir_iff (cs : FSChildren) :
    wfEntry (FSEntry.dir cs) = wfChildren cs := rfl

/-! ## Shape of the entries produced by the walk -/

theorem filesHere_shape (pats relRoot : List String) :
    ∀ (cs : FSChildren) (e : ContextEntry), e ∈ filesHere pats relRoot cs →
      ∃ n, n ∈ namesOf cs ∧ fileKept pats relRoot n = true ∧
        e.path = renderRel (relRoot ++ [n])
  | FSChildren.nil, e, h => absurd h (by simp [filesHere])
  | FSChildren.cons m (FSEntry.dir _) rest, e, h => by
    rcases filesHere_shape pats relRoot rest e (by simpa [filesHere] using h)
      with ⟨n, hn, hk, hp⟩
    exact ⟨n, by simp [namesOf, hn], hk, hp⟩
  | FSChildren.cons m (FSEntry.file data) rest, e, h => by
    simp only [filesHere, List.mem_append] at h
    rcases h with h | h
    · by_cases hk : fileKept pats relRoot m = true
      · cases data with
        | some content =>
          simp only [hk, if_true, List.mem_singleton] at h
          exact ⟨m, by simp [namesOf], hk, by rw [h]⟩
        | none => simp [hk] at h
      · simp [hk] at h
    · rcases filesHere_shape pats relRoot rest e h with ⟨n, hn, hk, hp⟩
      exact ⟨n, by simp [namesOf, hn], hk, hp⟩

theorem walkSub_shape (pats : List String) :
    ∀ (cs : FSChildren) (relRoot : List String) (e : ContextEntry),
      wfChildren cs = true → e ∈ walkSub pats relRoot cs →
      ∃ h mid n, e.path = renderRel (relRoot ++ (h :: mid) ++ [n]) ∧
        h ∈ namesOf cs ∧ fileKept pats (relRoot ++ (h :: mid)) n = true ∧
        ((h :: mid) ++ [n]).all sepFree = true
  | FSChildren.nil, _, e, _, he => absurd he (by simp [walkSub])
  | FSChildren.cons n₀ (FSEntry.file d) rest, relRoot, e, hwf, he => by
    rcases (wfChildren_cons_iff n₀ _ rest).mp hwf with ⟨_, _, _, hwfr⟩
    have he' : e ∈ walkSub pats relRoot rest := by simpa [walkSub] using he
    rcases walkSub_shape pats rest relRoot e hwfr he' with
      ⟨h, mid, n, hp, hmem, hk, hsf⟩
    exact ⟨h, mid, n, hp, by simp [namesOf, hmem], hk, hsf⟩
  | FSChildren.cons n₀ (FSEntry.dir cs') rest, relRoot, e, hwf, he => by
    rcases (wfChildren_cons_iff n₀ _ rest).mp hwf with ⟨hsf₀, _, hwfe, hwfr⟩
    have hwfc : wfChildren cs' = true := by rw [← wfEntry_dir_iff]; exact hwfe
    simp only [walkSub, List.mem_append] at he
    rcases he with he | he
    · by_cases hpr : dirPruned pats relRoot n₀ = true
      · rw [if_pos hpr] at he
        simp at he
      · rw [if_neg hpr, List.mem_append] at he
        rcases he with he | he
        · rcases filesHere_shape pats (relRoot ++ [n₀]) cs' e he with
            ⟨m, hm, hk, hp⟩
          refine ⟨n₀, [], m, hp, by simp [namesOf], hk, ?_⟩
          simp [List.all_cons, hsf₀, wfChildren_names_sepFree hwfc m hm]
        · rcases walkSub_shape pats cs' (relRoot ++ [n₀]) e hwfc he with
            ⟨h, mid, n, hp, _, hk, hsf⟩
          refine ⟨n₀, h :: mid, n, ?_, by simp [namesOf], ?_, ?_⟩
          · rw [hp]
            simp [List.append_assoc]
          · simpa [List.append_assoc] using hk
          · simp only [List.all_cons, List.all_append, Bool.and_eq_true] at hsf ⊢
            exact ⟨⟨hsf₀, hsf.1.1, hsf.1.2⟩, hsf.2⟩
    · rcases walkSub_shape pats rest relRoot e hwfr he with
        ⟨h, mid, n, hp, hmem, hk, hsf⟩
      exact ⟨h, mid, n, hp, by simp [namesOf, hmem], hk, hsf⟩

/-! ## No two entries share a path -/

theorem singleton_ne_cons_append {α : Type} (m h n : α) (mid : List α) :
    ([m] : List α) ≠ (h :: mid) ++ [n] := by
  intro hEq
  have hlen := congrArg List.length hEq
  simp only [List.length_singleton, List.cons_append, List.length_cons,
    List.length_append] at hlen
  omega

theorem filesHere_paths_nodup (pats relRoot : List String)
    (hrf : relRoot.all sepFree = true) :
    ∀ cs : FSChildren, (namesOf cs).Nodup →
      (∀ x ∈ namesOf cs, sepFree x = true) →
      ((filesHere pats relRoot cs).map ContextEntry.path).Nodup
  | FSChildren.nil, _, _ => by simp [filesHere]
  | FSChildren.cons m (FSEntry.dir _) rest, hnd, hsf => by
    have hnd' : (namesOf rest).Nodup := by
      simp only [namesOf, List.nodup_cons] at hnd
      exact hnd.2
    have hsf' : ∀ x ∈ namesOf rest, sepFree x = true := fun x hx =>
      hsf x (by simp [namesOf, hx])
    simpa [filesHere] using
      filesHere_paths_nodup pats relRoot hrf rest hnd' hsf'
  | FSChildren.cons m (FSEntry.file data) rest, hnd, hsf => by
    have hmni : m ∉ namesOf rest := by
      simp only [namesOf, List.nodup_cons] at hnd
      exact hnd.1
    have hnd' : (namesOf rest).Nodup := by
      simp only [namesOf, List.nodup_cons] at hnd
      exact hnd.2
    have hsf' : ∀ x ∈ namesOf rest, sepFree x = true := fun x hx =>
      hsf x (by simp [namesOf, hx])
    have ih := filesHere_paths_nodup pats relRoot hrf rest hnd' hsf'
    by_cases hk : fileKept pats relRoot m = true
    · cases data with
      | none => simpa [filesHere, hk] using ih
      | some content =>
        simp only [filesHere, if_pos hk, List.singleton_append, List.map_cons,
          List.nodup_cons]
        refine ⟨?_, ih⟩
        intro hmem
        rcases List.mem_map.mp hmem with ⟨e, he, hep⟩
        rcases filesHere_shape pats relRoot rest e he with ⟨n, hn, _, hp⟩
        have hmn : ([m] : List String) = [n] := by
          refine renderRel_append_inj relRoot [m] [n] hrf ?_ ?_
            (by simp) (by simp) ?_
          · simp [hsf m (by simp [namesOf])]
          · simp [hsf' n hn]
          · rw [← hep, hp]
        have : m = n := by
          simpa using hmn
        exact hmni (this ▸ hn)
    · simpa [filesHere, hk] using ih

theorem walkSub_paths_nodup (pats : List String) :
    ∀ (cs : FSChildren) (relRoot : List String), wfChildren cs = true →
      relRoot.all sepFree = true →
      ((walkSub pats relRoot cs).map ContextEntry.path).Nodup
  | FSChildren.nil, _, _, _ => by simp [walkSub]
  | FSChildren.cons n₀ (FSEntry.file d) rest, relRoot, hwf, hrf => by
    rcases (wfChildren_cons_iff n₀ _ rest).mp hwf with ⟨_, _, _, hwfr⟩
    simpa [walkSub] using walkSub_paths_nodup pats rest relRoot hwfr hrf
  | FSChildren.cons n₀ (FSEntry.dir cs') rest, relRoot, hwf, hrf => by
    rcases (wfChildren_cons_iff n₀ _ rest).mp hwf with ⟨hsf₀, hni, hwfe, hwfr⟩
    have hwfc : wfChildren cs' = true := by rw [← wfEntry_dir_iff]; exact hwfe
    have ihrest := walkSub_paths_nodup pats rest relRoot hwfr hrf
    by_cases hpr : dirPruned pats relRoot n₀ = true
    · simpa [walkSub, if_pos hpr] using ihrest
    · have hrf' : (relRoot ++ [n₀]).all sepFree = true := by
        simp [List.all_append, hrf, hsf₀]
      have hfn := filesHere_paths_nodup pats (relRoot ++ [n₀]) hrf' cs'
        (wfChildren_names_nodup hwfc) (wfChildren_names_sepFree hwfc)
      have hwn := walkSub_paths_nodup pats cs' (relRoot ++ [n₀]) hwfc hrf'
      simp only [walkSub, if_neg hpr, List.map_append]
      rw [List.nodup_append, List.nodup_append]
      refine ⟨⟨hfn, hwn, ?_⟩, ihrest, ?_⟩
      · -- the subdirectory's own files are disjoint from its deeper entries
        intro p hpA hpB
        rcases List.mem_map.mp hpA with ⟨e₁, he₁, hep₁⟩
        rcases List.mem_map.mp hpB with ⟨e₂, he₂, hep₂⟩
        rcases filesHere_shape pats (relRoot ++ [n₀]) cs' e₁ he₁ with
          ⟨m, hm, _, hp₁⟩
        rcases walkSub_shape pats cs' (relRoot ++ [n₀]) e₂ hwfc he₂ with
          ⟨h, mid, n, hp₂, _, _, hsfc⟩
        have hmn : ([m] : List String) = (h :: mid) ++ [n] := by
          refine renderRel_append_inj (relRoot ++ [n₀]) [m] ((h :: mid) ++ [n])
            hrf' ?_ hsfc (by simp) (by simp) ?_
          · simp [wfChildren_names_sepFree hwfc m hm]
          · have h12 : e₁.path = e₂.path := by rw [hep₁, hep₂]
            rw [hp₁, hp₂] at h12
            simpa [List.append_assoc] using h12
        exact singleton_ne_cons_append m h n mid hmn
      · -- this subdirectory's entries are disjoint from the later siblings'
        intro p hpA hpB
        rcases List.mem_map.mp hpB with ⟨e₂, he₂, hep₂⟩
        rcases walkSub_shape pats rest relRoot e₂ hwfr he₂ with
          ⟨h', mid', n', hp₂, hmem', _, hsfc'⟩
        have hform : ∃ X, X ≠ [] ∧ X.all sepFree = true ∧
            p = renderRel (relRoot ++ (n₀ :: X)) := by
          rcases List.mem_append.mp hpA with hpA | hpA
          · rcases List.mem_map.mp hpA with ⟨e₁, he₁, hep₁⟩
            rcases filesHere_shape pats (relRoot ++ [n₀]) cs' e₁ he₁ with
              ⟨m, hm, _, hp₁⟩
            refine ⟨[m], by simp, ?_, ?_⟩
            · simp [wfChildren_names_sepFree hwfc m hm]
            · rw [← hep₁, hp₁]
              simp [List.append_assoc]
          · rcases List.mem_map.mp hpA with ⟨e₁, he₁, hep₁⟩
            rcases walkSub_shape pats cs' (relRoot ++ [n₀]) e₁ hwfc he₁ with
              ⟨h, mid, n, hp₁, _, _, hsfc⟩
            refine ⟨(h :: mid) ++ [n], by simp, hsfc, ?_⟩
            rw [← hep₁, hp₁]
            simp [List.append_assoc]
        rcases hform with ⟨X, hXne, hXsf, hpX⟩
        have heq : (n₀ :: X) = h' :: (mid' ++ [n']) := by
          refine renderRel_append_inj relRoot (n₀ :: X) (h' :: (mid' ++ [n']))
            hrf ?_ ?_ (by simp) (by simp) ?_
          · simp [List.all_cons, hsf₀, hXsf]
          · simpa [List.all_cons, List.all_append] using hsfc'
          · rw [← hpX, ← hep₂, hp₂]
            congr 1
            simp [List.append_assoc]
        have : n₀ = h' := by
          injection heq
        exact hni (this ▸ hmem')

theorem walkDir_paths_nodup (pats relRoot : List String) (cs : FSChildren)
    (hwf : wfChildren cs = true) (hrf : relRoot.all sepFree = true) :
    ((walkDir pats relRoot cs).map ContextEntry.path).Nodup := by
  unfold walkDir
  rw [List.map_append, List.nodup_append]
  refine ⟨filesHere_paths_nodup pats relRoot hrf cs
    (wfChildren_names_nodup hwf) (wfChildren_names_sepFree hwf),
    walkSub_paths_nodup pats cs relRoot hwf hrf, ?_⟩
  intro p hpA hpB
  rcases List.mem_map.mp hpA with ⟨e₁, he₁, hep₁⟩
  rcases List.mem_map.mp hpB with ⟨e₂, he₂, hep₂⟩
  rcases filesHere_shape pats relRoot cs e₁ he₁ with ⟨m, hm, _, hp₁⟩
  rcases walkSub_shape pats cs relRoot e₂ hwf he₂ with
    ⟨h, mid, n, hp₂, _, _, hsfc⟩
  have hmn : ([m] : List String) = (h :: mid) ++ [n] := by
    refine renderRel_append_inj relRoot [m] ((h :: mid) ++ [n]) hrf ?_ hsfc
      (by simp) (by simp) ?_
    · simp [wfChildren_names_sepFree hwf m hm]
    · have h12 : e₁.path = e₂.path := by rw [hep₁, hep₂]
      rw [hp₁, hp₂] at h12
      simpa [List.append_assoc] using h12
  exact singleton_ne_cons_append m h n mid hmn

theorem walkDir_shape (pats relRoot : List String) (cs : FSChildren)
    (hwf : wfChildren cs = true) (e : ContextEntry)
    (he : e ∈ walkDir pats relRoot cs) :
    ∃ mid n, e.path = renderRel (relRoot ++ mid ++ [n]) ∧
      fileKept pats (relRoot ++ mid) n = true ∧
      (mid ++ [n]).all sepFree = true := by
  unfold walkDir at he
  rcases List.mem_append.mp he with he | he
  · rcases filesHere_shape pats relRoot cs e he with ⟨n, hn, hk, hp⟩
    exact ⟨[], n, by simpa using hp, by simpa using hk,
      by simp [wfChildren_names_sepFree hwf n hn]⟩
  · rcases walkSub_shape pats cs relRoot e hwf he with
      ⟨h, mid, n, hp, _, hk, hsf⟩
    exact ⟨h :: mid, n, hp, hk, hsf⟩

/-- A file that survives both `continue`s in particular passed the built-in
substring check. -/
theorem fileKept_no_builtin {pats relRoot : List String} {n : String}
    (h : fileKept pats relRoot n = true) : nameHasBuiltin n = false := by
  simp only [fileKept, fileExcludedEarly, Bool.and_eq_true, Bool.not_eq_true',
    Bool.or_eq_false_iff] at h
  exact h.1.2

theorem getLastD_append_singleton {α : Type} (l : List α) (a : α) :
    ∀ d, (l ++ [a]).getLastD d = a := by
  induction l with
  | nil => intro d; rfl
  | cons x xs ih =>
    intro d
    rw [List.cons_append, List.getLastD_cons]
    exact ih x

/-! ## Unreadable files are skipped silently: removing them changes nothing -/

theorem filesHere_dropUnreadable (pats relRoot : List String) :
    ∀ cs : FSChildren,
      filesHere pats relRoot (dropUnreadable cs) = filesHere pats relRoot cs
  | FSChildren.nil => rfl
  | FSChildren.cons n (FSEntry.file none) rest => by
    simp [dropUnreadable, filesHere, filesHere_dropUnreadable pats relRoot rest]
  | FSChildren.cons n (FSEntry.file (some d)) rest => by
    simp [dropUnreadable, filesHere, filesHere_dropUnreadable pats relRoot rest]
  | FSChildren.cons n (FSEntry.dir cs') rest => by
    simp [dropUnreadable, filesHere, filesHere_dropUnreadable pats relRoot rest]

theorem walkSub_dropUnreadable (pats : List String) :
    ∀ (cs : FSChildren) (relRoot : List String),
      walkSub pats relRoot (dropUnreadable cs) = walkSub pats relRoot cs
  | FSChildren.nil, _ => rfl
  | FSChildren.cons n (FSEntry.file none) rest, relRoot => by
    simp [dropUnreadable, walkSub, walkSub_dropUnreadable pats rest relRoot]
  | FSChildren.cons n (FSEntry.file (some d)) rest, relRoot => by
    simp [dropUnreadable, walkSub, walkSub_dropUnreadable pats rest relRoot]
  | FSChildren.cons n (FSEntry.dir cs') rest, relRoot => by
    by_cases hpr : dirPruned pats relRoot n = true
    · simp [dropUnreadable, walkSub, if_pos hpr,
        walkSub_dropUnreadable pats rest relRoot]
    · simp [dropUnreadable, walkSub, if_neg hpr,
        walkSub_dropUnreadable pats rest relRoot,
        walkSub_dropUnreadable pats cs' (relRoot ++ [n]),
        filesHere_dropUnreadable pats (relRoot ++ [n]) cs']

theorem walkDir_dropUnreadable (pats relRoot : List String) (cs : FSChildren) :
    walkDir pats relRoot (dropUnreadable cs) = walkDir pats relRoot cs := by
  unfold walkDir
  rw [filesHere_dropUnreadable, walkSub_dropUnreadable]

/-! ## A directory whose bare name matches a pattern is pruned whole -/

theorem walkDir_pruned_subtree (pats relRoot : List String) (nm : String)
    (cs' rest : FSChildren)
    (hm : ∃ p ∈ pats, fnmatch nm (rstripSep p) = true) :
    walkDir pats relRoot (FSChildren.cons nm (FSEntry.dir cs') rest) =
      walkDir pats relRoot
        (FSChildren.cons nm (FSEntry.dir FSChildren.nil) rest) := by
  have hpr : dirPruned pats relRoot nm = true := by
    rcases hm with ⟨p, hp, hf⟩
    unfold dirPruned
    rw [List.any_eq_true]
    exact ⟨p, hp, by simp [hf]⟩
  simp [walkDir, filesHere, walkSub, if_pos hpr]

/-! ## Concrete scenario trees -/

/-- Root with `a.txt` ("hello"), a `.gitignore` whose sole line is `b/`, and
a subdirectory `b` containing `c.txt`. -/
def sceneRootB : FSEntry := FSEntry.dir (fsChildren
  [(".gitignore", FSEntry.file (some "b/")),
   ("a.txt", FSEntry.file (some "hello")),
   ("b", FSEntry.dir (fsChildren [("c.txt", FSEntry.file (some "x"))]))])

/-- Root containing only `secret.env`. -/
def sceneSecret : FSEntry :=
  FSEntry.dir (fsChildren [("secret.env", FSEntry.file (some "KEY=1"))])

/-- Root whose `.gitignore` lists `secret.env`, next to `secret.env` itself. -/
def sceneC10 : FSEntry := FSEntry.dir (fsChildren
  [(".gitignore", FSEntry.file (some "secret.env")),
   ("secret.env", FSEntry.file (some "KEY"))])

/-- Root `.gitignore` ignores `a.txt`; the scanned subdirectory `sub` has its
own `.gitignore` ignoring `b.txt`, plus both files. -/
def sceneTwoIgnores : FSEntry := FSEntry.dir (fsChildren
  [(".gitignore", FSEntry.file (some "a.txt")),
   ("sub", FSEntry.dir (fsChildren
     [(".gitignore", FSEntry.file (some "b.txt")),
      ("a.txt", FSEntry.file (some "A")),
      ("b.txt", FSEntry.file (some "B"))]))])

/-- Root with a nested readable file. -/
def sceneDeep : FSEntry := FSEntry.dir (fsChildren
  [("sub", FSEntry.dir (fsChildren [("inner.txt", FSEntry.file (some "T"))]))])

/-- Root with a single unreadable (binary) file. -/
def sceneBin : FSEntry :=
  FSEntry.dir (fsChildren [("blob.bin", FSEntry.file none)])

/-- A listing mixing an unreadable file and a readable one. -/
def sceneMixed : FSChildren :=
  fsChildren [("blob.bin", FSEntry.file none), ("t.txt", FSEntry.file (some "T"))]

/-- Root with one plain file and no `.gitignore`. -/
def sceneNoIgn : FSEntry :=
  FSEntry.dir (fsChildren [("a.txt", FSEntry.file (some "A"))])

/-- Root with a file and a subdirectory holding another file. -/
def sceneNested : FSEntry := FSEntry.dir (fsChildren
  [("a.txt", FSEntry.file (some "A")),
   ("d", FSEntry.dir (fsChildren [("b.txt", FSEntry.file (some "B"))]))])

/-- The well-formedness the claims about a scanned directory assume: when the
path argument resolves to a directory, its listing has distinct,
separator-free sibling names at every depth (true of any real directory). -/
def scanWf (cwd : FSEntry) (path : List String) : Bool :=
  match lookup cwd path with
  | some (FSEntry.dir cs) => wfChildren cs
  | _ => true

/-! ## The claims -/

/-- Claim C1 is FALSE on the code: for a path argument that names no existing
filesystem object the collector returns `Success` with zero entries, not a
`Failure` — `os.path.abspath` is purely lexical and never fails, and
`os.walk` on a nonexistent path silently yields nothing.  Concretely, in an
empty working directory, `collect(root, "missing.txt")` returns an empty
`Success`. -/
theorem claim_C1_counterexample :
    (lookup (FSEntry.dir FSChildren.nil) ["missing.txt"]).isNone = true ∧
      get_workspace_context (FSEntry.dir FSChildren.nil) ["missing.txt"] =
        CollectResult.success [] := by
  decide

/-- Claim C1 (amended): for every path argument that does not name an
existing filesystem object, the collector returns `Success` with an empty
entry list (provided the `.gitignore` load itself succeeds, which covers an
absent or readable ignore file). -/
theorem claim_C1 (cwd : FSEntry) (path : List String) (pats : List String)
    (hgi : gitignoreRead cwd = Except.ok pats)
    (hlk : lookup cwd path = none) :
    get_workspace_context cwd path = CollectResult.success [] := by
  simp [get_workspace_context, hgi, hlk]

theorem claim_C1_witness :
    get_workspace_context (FSEntry.dir FSChildren.nil) ["nope"] =
      CollectResult.success [] :=
  claim_C1 (FSEntry.dir FSChildren.nil) ["nope"] [] rfl rfl

/-- Claim C2: a subdirectory whose bare name is matched by an ignore pattern
(after stripping the pattern's trailing separators, e.g. pattern `b/` and
directory `b`) is pruned: replacing its whole subtree by an empty listing
does not change the walk's result at any nesting depth, so no file beneath
it ever appears.  In particular, for a root with `a.txt` ("hello"), a
`.gitignore` of `b/` and a subdirectory `b/c.txt`, collecting `"."` returns
`Success` with exactly one entry, `a.txt` / "hello". -/
theorem claim_C2 :
    (∀ (pats relRoot : List String) (nm : String) (cs' rest : FSChildren),
      (∃ p ∈ pats, fnmatch nm (rstripSep p) = true) →
      walkDir pats relRoot (FSChildren.cons nm (FSEntry.dir cs') rest) =
        walkDir pats relRoot
          (FSChildren.cons nm (FSEntry.dir FSChildren.nil) rest)) ∧
    get_workspace_context sceneRootB [] =
      CollectResult.success [⟨"a.txt", "hello"⟩] := by
  constructor
  · intro pats relRoot nm cs' rest hm
    exact walkDir_pruned_subtree pats relRoot nm cs' rest hm
  · decide

theorem claim_C2_witness :
    walkDir ["b/"] []
        (FSChildren.cons "b"
          (FSEntry.dir (fsChildren [("c.txt", FSEntry.file (some "x"))]))
          FSChildren.nil) =
      walkDir ["b/"] []
        (FSChildren.cons "b" (FSEntry.dir FSChildren.nil) FSChildren.nil) :=
  claim_C2.1 ["b/"] [] "b" (fsChildren [("c.txt", FSEntry.file (some "x"))])
    FSChildren.nil ⟨"b/", by decide, by decide⟩

/-- Claim C3: for every path argument that resolves to a regular file whose
contents decode as UTF-8, the collector returns `Success` with exactly one
entry whose path is the file's base name (the last path component, never a
longer relative path) and whose content is the decoded text — provided the
`.gitignore` load itself succeeds (absent or readable ignore file). -/
theorem claim_C3 (cwd : FSEntry) (path : List String) (pats : List String)
    (content : String) (hgi : gitignoreRead cwd = Except.ok pats)
    (hlk : lookup cwd path = some (FSEntry.file (some content))) :
    get_workspace_context cwd path =
      CollectResult.success [⟨basename path, content⟩] := by
  simp [get_workspace_context, hgi, hlk]

theorem claim_C3_witness :
    get_workspace_context sceneDeep ["sub", "inner.txt"] =
      CollectResult.success [⟨"inner.txt", "T"⟩] :=
  claim_C3 sceneDeep ["sub", "inner.txt"] [] "T" rfl rfl

/-- Claim C4: for every path argument that resolves to a regular file which
fails to open or decode as UTF-8, the collector returns `Failure` with
exactly the reason "Cannot read file: binary or unreadable" — provided the
`.gitignore` load itself succeeds (absent or readable ignore file). -/
theorem claim_C4 (cwd : FSEntry) (path : List String) (pats : List String)
    (hgi : gitignoreRead cwd = Except.ok pats)
    (hlk : lookup cwd path = some (FSEntry.file none)) :
    get_workspace_context cwd path =
      CollectResult.failure "Cannot read file: binary or unreadable" := by
  simp [get_workspace_context, hgi, hlk]

theorem claim_C4_witness :
    get_workspace_context sceneBin ["blob.bin"] =
      CollectResult.failure "Cannot read file: binary or unreadable" :=
  claim_C4 sceneBin ["blob.bin"] [] rfl rfl

/-- Claim C5: in every directory-mode `Success` result, no entry's file name
(case-insensitively) contains any of the built-in substrings `.git`, `.pyc`,
`.env`, `__pycache__` — whatever the ignore rule set, in particular an empty
one; the scanned directory is assumed well formed (real directories are).
In particular a root containing only `secret.env` collects to `Success` with
zero entries. -/
theorem claim_C5 :
    (∀ (cwd : FSEntry) (path : List String) (cs : FSChildren)
        (l : List ContextEntry),
      lookup cwd path = some (FSEntry.dir cs) → wfChildren cs = true →
      get_workspace_context cwd path = CollectResult.success l →
      ∀ e ∈ l, nameHasBuiltin (entryFileName e) = false) ∧
    get_workspace_context sceneSecret [] = CollectResult.success [] := by
  constructor
  · intro cwd path cs l hlk hwf hs e he
    cases hgi : gitignoreRead cwd with
    | error msg =>
      simp only [get_workspace_context, hgi] at hs
      exact absurd hs (by simp)
    | ok pats =>
      simp only [get_workspace_context, hgi, hlk,
        CollectResult.success.injEq] at hs
      rw [← hs] at he
      rcases walkDir_shape pats [] cs hwf e he with ⟨mid, n, hp, hk, hsf⟩
      rw [List.nil_append] at hp hk
      unfold entryFileName
      rw [hp, splitSep_renderRel (mid ++ [n]) (by simp)
        (fun s hs' => List.all_eq_true.mp hsf s hs'),
        getLastD_append_singleton]
      exact fileKept_no_builtin hk
  · decide

theorem claim_C5_witness :
    nameHasBuiltin (entryFileName ⟨"a.txt", "A"⟩) = false ∧
      nameHasBuiltin (entryFileName ⟨"d/b.txt", "B"⟩) = false := by
  have h := claim_C5.1 sceneNested []
    (fsChildren [("a.txt", FSEntry.file (some "A")),
      ("d", FSEntry.dir (fsChildren [("b.txt", FSEntry.file (some "B"))]))])
    [⟨"a.txt", "A"⟩, ⟨"d/b.txt", "B"⟩] rfl (by decide) (by decide)
  exact ⟨h _ (by simp), h _ (by simp)⟩

/-- Claim C6: during directory-mode traversal, files that fail to open or
decode are silently omitted — removing every unreadable file from the tree
leaves the result unchanged — and as long as the path argument resolves to a
directory (and the `.gitignore` load succeeds) the overall result is a
`Success`, never a `Failure`. -/
theorem claim_C6 :
    (∀ (pats relRoot : List String) (cs : FSChildren),
      walkDir pats relRoot (dropUnreadable cs) = walkDir pats relRoot cs) ∧
    (∀ (cwd : FSEntry) (path : List String) (pats : List String)
        (cs : FSChildren), gitignoreRead cwd = Except.ok pats →
      lookup cwd path = some (FSEntry.dir cs) →
      get_workspace_context cwd path =
        CollectResult.success (walkDir pats [] cs)) := by
  constructor
  · exact fun pats relRoot cs => walkDir_dropUnreadable pats relRoot cs
  · intro cwd path pats cs hgi hlk
    simp [get_workspace_context, hgi, hlk]

theorem claim_C6_witness :
    walkDir [] [] (dropUnreadable sceneMixed) = walkDir [] [] sceneMixed ∧
      get_workspace_context (FSEntry.dir sceneMixed) [] =
        CollectResult.success (walkDir [] [] sceneMixed) :=
  ⟨claim_C6.1 [] [] sceneMixed,
   claim_C6.2 (FSEntry.dir sceneMixed) [] [] sceneMixed rfl rfl⟩

/-- Claim C7: the ignore rule set is taken from the `.gitignore` directly
under the working directory, not under the scanned subdirectory (scanning
`sub` below applies the root's patterns and ignores `sub/.gitignore`);
absence of `.gitignore` yields the empty rule set and is not an error; and
the loaded patterns are exactly the non-blank lines not starting with `#`,
trimmed, with forward slashes translated to the host separator. -/
theorem claim_C7 :
    (∀ (cwd : FSEntry) (path : List String) (cs : FSChildren),
      lookup cwd [".gitignore"] = none →
      lookup cwd path = some (FSEntry.dir cs) →
      get_workspace_context cwd path =
        CollectResult.success (walkDir [] [] cs)) ∧
    get_workspace_context sceneTwoIgnores ["sub"] =
      CollectResult.success [⟨"b.txt", "B"⟩] ∧
    parseGitignore "  a.txt  \n\n# comment\nb/c\n" = ["a.txt", "b/c"] := by
  refine ⟨?_, by decide, by decide⟩
  intro cwd path cs hgi hlk
  have hok : gitignoreRead cwd = Except.ok [] := by
    simp [gitignoreRead, hgi]
  simp [get_workspace_context, hok, hlk]

theorem claim_C7_witness :
    get_workspace_context sceneNoIgn [] =
      CollectResult.success
        (walkDir [] [] (fsChildren [("a.txt", FSEntry.file (some "A"))])) :=
  claim_C7.1 sceneNoIgn [] (fsChildren [("a.txt", FSEntry.file (some "A"))])
    rfl rfl

/-- Claim C8: the collector is a pure function of the filesystem tree and the
path argument, so two runs over an unchanged tree return byte-identical
ordered results. -/
theorem claim_C8 (cwd cwd' : FSEntry) (path : List String) (h : cwd = cwd') :
    get_workspace_context cwd path = get_workspace_context cwd' path := by
  rw [h]

theorem claim_C8_witness :
    get_workspace_context sceneNested [] =
      get_workspace_context sceneNested [] :=
  claim_C8 sceneNested sceneNested [] rfl

/-- Claim C9: in every `Success` result of the collector, entries are unique
by path: no two entries share the same path string.  The scanned directory
is assumed well formed (distinct, separator-free sibling names at every
depth — true of any real directory). -/
theorem claim_C9 (cwd : FSEntry) (path : List String) (l : List ContextEntry)
    (hwf : scanWf cwd path = true)
    (hs : get_workspace_context cwd path = CollectResult.success l) :
    (l.map ContextEntry.path).Nodup := by
  unfold scanWf at hwf
  cases hgi : gitignoreRead cwd with
  | error msg =>
    simp only [get_workspace_context, hgi] at hs
    exact absurd hs (by simp)
  | ok pats =>
    cases hlk : lookup cwd path with
    | none =>
      simp only [get_workspace_context, hgi, hlk,
        CollectResult.success.injEq] at hs
      rw [← hs]
      simp
    | some entry =>
      cases entry with
      | file d =>
        cases d with
        | some content =>
          simp only [get_workspace_context, hgi, hlk,
            CollectResult.success.injEq] at hs
          rw [← hs]
          simp
        | none =>
          simp only [get_workspace_context, hgi, hlk] at hs
          exact absurd hs (by simp)
      | dir cs =>
        rw [hlk] at hwf
        simp only [] at hwf
        simp only [get_workspace_context, hgi, hlk,
          CollectResult.success.injEq] at hs
        rw [← hs]
        exact walkDir_paths_nodup pats [] cs hwf rfl

theorem claim_C9_witness :
    (([⟨"a.txt", "A"⟩, ⟨"d/b.txt", "B"⟩] : List ContextEntry).map
      ContextEntry.path).Nodup :=
  claim_C9 sceneNested [] [⟨"a.txt", "A"⟩, ⟨"d/b.txt", "B"⟩]
    (by decide) (by decide)

/-- Claim C10: in single-file mode no filtering is applied: whenever the path
argument resolves to a readable UTF-8 file, its single entry is returned
(provided the `.gitignore` load succeeds) regardless of the ignore patterns
and built-in exclusions; concretely, with `.gitignore` listing `secret.env`,
collecting `secret.env` directly returns its entry, while directory mode on
the same root returns zero entries. -/
theorem claim_C10 :
    (∀ (cwd : FSEntry) (path pats : List String) (content : String),
      gitignoreRead cwd = Except.ok pats →
      lookup cwd path = some (FSEntry.file (some content)) →
      get_workspace_context cwd path =
        CollectResult.success [⟨basename path, content⟩]) ∧
    get_workspace_context sceneC10 ["secret.env"] =
      CollectResult.success [⟨"secret.env", "KEY"⟩] ∧
    get_workspace_context sceneC10 [] = CollectResult.success [] := by
  refine ⟨?_, by decide, by decide⟩
  intro cwd path pats content hgi hlk
  simp [get_workspace_context, hgi, hlk]

theorem claim_C10_witness :
    get_workspace_context sceneC10 ["secret.env"] =
      CollectResult.success [⟨"secret.env", "KEY"⟩] :=
  claim_C10.1 sceneC10 ["secret.env"] ["secret.env"] "KEY" rfl rfl

end LLMCode
